import Mathlib

/-!
Formal model of `tensorflow_hub/tools/module_search/utils.py`.

The source operates on numpy arrays of floating-point numbers.  The model uses
exact arithmetic: rationals for the squared-L2 pipeline and the KNN evaluator
(which keeps every operation computable and decidable), and reals for the
leave-one-out distance computation because the cosine branch takes square
roots.  Matrices of shape (m, n) are functions `Fin m → Fin n → _`; label
vectors are `Fin n → ℤ`.  Python exceptions are modelled with `Except String`;
the string carries the kind of error raised.  IEEE NaN (which the cosine
branch produces on zero-norm rows by dividing 0 by 0) is modelled by `none` in
an `Option`-valued matrix entry, and the `+inf` written onto diagonals by
`WithTop`.
-/

set_option maxHeartbeats 1000000

/-- Model of `compute_distance_matrix(x_train, x_test, measure)`.  For the
`"squared_l2"` measure the source computes `x_xt = x_test @ x_train.T`, the
row-wise sums of squares `x_train_2` and `x_test_2`, and then per row sets
`x_xt[i, :] = x_xt[i, :] * (-2) + x_test_2[i] + x_train_2`.  Any other measure
raises `NotImplementedError`. -/
def compute_distance_matrix {n m dd : ℕ} (x_train : Fin n → Fin dd → ℚ)
    (x_test : Fin m → Fin dd → ℚ) (measure : String) :
    Except String (Fin m → Fin n → ℚ) :=
  if measure = "squared_l2" then
    .ok (fun i j =>
      (∑ p, x_test i p * x_train j p) * (-2) +
        (∑ p, x_test i p * x_test i p) + (∑ p, x_train j p * x_train j p))
  else
    .error ("NotImplementedError: Method " ++ measure ++ " is not implemented")

/-- The `"squared_l2"` branch of `compute_distance_matrix_loo`: from the Gram
matrix `x_xt = x @ x.T` the source sets
`d[i, j] = x_xt[i, j] * (-2) + x_xt[i, i] + x_xt[j, j]` and then forces the
diagonal entry `d[i, i]` to `+inf`. -/
noncomputable def looSquaredL2 {nn dd : ℕ} (x : Fin nn → Fin dd → ℝ) :
    Fin nn → Fin nn → Option (WithTop ℝ) :=
  fun i j =>
    if i = j then some ⊤
    else some (((∑ p, x i p * x j p) * (-2) +
      (∑ p, x i p * x i p) + (∑ p, x j p * x j p) : ℝ) : WithTop ℝ)

/-- The `"cosine"` branch of `compute_distance_matrix_loo`: the source computes
`ones - x_xt / outer(diag_sqrt, diag_sqrt)` with `diag_sqrt[i] = sqrt(x_xt[i, i])`
and then fills the diagonal with `+inf`.  When `outer[i, j] = 0` the division is
`0 / 0` (a zero-norm row also zeroes the corresponding dot products), which in
numpy yields NaN, modelled here as `none`. -/
noncomputable def looCosine {nn dd : ℕ} (x : Fin nn → Fin dd → ℝ) :
    Fin nn → Fin nn → Option (WithTop ℝ) :=
  fun i j =>
    if i = j then some ⊤
    else if Real.sqrt (∑ p, x i p * x i p) * Real.sqrt (∑ p, x j p * x j p) = 0 then
      none
    else some (((1 - (∑ p, x i p * x j p) /
      (Real.sqrt (∑ p, x i p * x i p) * Real.sqrt (∑ p, x j p * x j p)) : ℝ)) : WithTop ℝ)

/-- Model of `compute_distance_matrix_loo(x, measure)`: dispatches on the
measure, raising `NotImplementedError` for anything other than
`"squared_l2"` and `"cosine"`. -/
noncomputable def compute_distance_matrix_loo {nn dd : ℕ} (x : Fin nn → Fin dd → ℝ)
    (measure : String) :
    Except String (Fin nn → Fin nn → Option (WithTop ℝ)) :=
  if measure = "squared_l2" then .ok (looSquaredL2 x)
  else if measure = "cosine" then .ok (looCosine x)
  else .error ("NotImplementedError: Method " ++ measure ++ " is not implemented")

/-- Python slice `l[:k]` for an integer `k`: for `k ≥ 0` the first `k` elements,
for `k < 0` all but the last `-k` elements (clamped at the empty list). -/
def sliceTake {β : Type} (l : List β) (k : ℤ) : List β :=
  if 0 ≤ k then l.take k.toNat else l.take (l.length - (-k).toNat)

/-- Order on row indices used to model numpy index selection deterministically:
by distance value, with ties broken by the lower index. -/
abbrev rankLE {n : ℕ} {α : Type} [LinearOrder α] (row : Fin n → α) (a b : Fin n) : Prop :=
  row a < row b ∨ (row a = row b ∧ a ≤ b)

instance rankLE.isTotal {n : ℕ} {α : Type} [LinearOrder α] (row : Fin n → α) :
    IsTotal (Fin n) (rankLE row) := by
  constructor
  intro a b
  rcases lt_trichotomy (row a) (row b) with h | h | h
  · exact Or.inl (Or.inl h)
  · rcases le_total a b with hab | hab
    · exact Or.inl (Or.inr ⟨h, hab⟩)
    · exact Or.inr (Or.inr ⟨h.symm, hab⟩)
  · exact Or.inr (Or.inl h)

instance rankLE.isTrans {n : ℕ} {α : Type} [LinearOrder α] (row : Fin n → α) :
    IsTrans (Fin n) (rankLE row) := by
  constructor
  rintro a b c (hab | ⟨hab, hab'⟩) (hbc | ⟨hbc, hbc'⟩)
  · exact Or.inl (hab.trans hbc)
  · exact Or.inl (hbc ▸ hab)
  · exact Or.inl (hab ▸ hbc)
  · exact Or.inr ⟨hab.trans hbc, hab'.trans hbc'⟩

/-- Deterministic model of the index selection performed by
`np.argpartition(d, k-1, axis=1)` on one row: the full list of column indices
stably sorted by distance (ties by lower index).  `np.argpartition`'s contract
only guarantees that the first `k` positions hold (indices of) the `k` smallest
entries in some order; the stable argsort is one realization of that contract,
and the KNN code consumes the selected indices only as a multiset of labels. -/
def argsortRow {n : ℕ} {α : Type} [LinearOrder α] (row : Fin n → α) : List (Fin n) :=
  List.insertionSort (rankLE row) (List.finRange n)

/-- Model of `np.argmin(row)`: the first index attaining the minimum of the
row, or `none` for an empty row (numpy raises on an empty reduction). -/
def np_argmin {n : ℕ} {α : Type} [LinearOrder α] (row : Fin n → α) : Option (Fin n) :=
  (List.finRange n).argmin row

/-- The neighbor labels voted on for one row: `y_train[indices[i, :k]]` where
`indices[i]` is the (arg-partitioned) index row. -/
def voteLabels {n : ℕ} {α : Type} [LinearOrder α] (row : Fin n → α)
    (y_train : Fin n → ℤ) (k : ℤ) : List ℤ :=
  (sliceTake (argsortRow row) k).map y_train

/-- Model of the `keys` array of `np.unique(labels, return_counts=True)`: the
distinct label values sorted ascending. -/
def npUnique (l : List ℤ) : List ℤ :=
  List.insertionSort (fun a b => a ≤ b) l.dedup

/-- The majority-vote step of the general (`k ≠ 1`) KNN path for one row:
`keys, counts = np.unique(labels, return_counts=True); maxkey = keys[np.argmax(counts)]`.
`np.argmax` returns the first index of the maximum and raises `ValueError` on
an empty array. -/
def rowVote {n : ℕ} {α : Type} [LinearOrder α] (row : Fin n → α)
    (y_train : Fin n → ℤ) (k : ℤ) : Except String ℤ :=
  match (((npUnique (voteLabels row y_train k)).map
      (fun key => (key, (voteLabels row y_train k).count key))).argmax Prod.snd) with
  | none => .error "ValueError: attempt to get argmax of an empty sequence"
  | some kc => .ok kc.1

/-- The `k == 1` branch of `knn_errorrate` / `knn_errorrate_loo`: one
`np.argmin` per row, count mismatches, divide by the number of rows.
`np.argmin` raises when rows are empty; Python division by zero raises when
there are no rows. -/
def knnArgminPath {m n : ℕ} {α : Type} [LinearOrder α] (d : Fin m → Fin n → α)
    (y_train : Fin n → ℤ) (y_test : Fin m → ℤ) : Except String ℚ :=
  if n = 0 then .error "ValueError: attempt to get argmin of an empty sequence"
  else if m = 0 then .error "ZeroDivisionError: float division by zero"
  else .ok (((Finset.univ.filter
    (fun i : Fin m => (np_argmin (d i)).map y_train ≠ some (y_test i))).card : ℚ) / (m : ℚ))

/-- The general (`k ≠ 1`) branch of `knn_errorrate` / `knn_errorrate_loo`:
`np.argpartition(d, k - 1, axis=1)` first validates `-n ≤ k - 1 ≤ n - 1`
(raising `ValueError` otherwise); then each row votes via `rowVote` (an empty
label slice raises inside the loop); finally the mismatch count is divided by
the number of rows. -/
def knnGeneralPath {m n : ℕ} {α : Type} [LinearOrder α] (d : Fin m → Fin n → α)
    (y_train : Fin n → ℤ) (y_test : Fin m → ℤ) (k : ℤ) : Except String ℚ :=
  if -(n : ℤ) ≤ k - 1 ∧ k - 1 < (n : ℤ) then
    if ∀ i : Fin m, (rowVote (d i) y_train k).toOption.isSome = true then
      if m = 0 then .error "ZeroDivisionError: float division by zero"
      else .ok (((Finset.univ.filter
        (fun i : Fin m => (rowVote (d i) y_train k).toOption ≠ some (y_test i))).card : ℚ) /
          (m : ℚ))
    else .error "ValueError: attempt to get argmax of an empty sequence"
  else .error "ValueError: kth out of bounds"

/-- Model of `knn_errorrate(d, y_train, y_test, k)`: the `k == 1` special case
uses one arg-min per row; every other `k` goes through the arg-partition and
majority-vote path. -/
def knn_errorrate {m n : ℕ} {α : Type} [LinearOrder α] (d : Fin m → Fin n → α)
    (y_train : Fin n → ℤ) (y_test : Fin m → ℤ) (k : ℤ) : Except String ℚ :=
  if k = 1 then knnArgminPath d y_train y_test else knnGeneralPath d y_train y_test k

/-- Model of `knn_errorrate_loo(d, y, k)`: identical code to `knn_errorrate`
with the single label vector `y` serving as both train and test labels. -/
def knn_errorrate_loo {nn : ℕ} {α : Type} [LinearOrder α] (d : Fin nn → Fin nn → α)
    (y : Fin nn → ℤ) (k : ℤ) : Except String ℚ :=
  if k = 1 then knnArgminPath d y y else knnGeneralPath d y y k

/-- The label predicted for row `i` (as an `Option`, `none` when the vote step
fails): the arg-min label for `k = 1`, the majority vote otherwise. -/
def votedLabel {m n : ℕ} {α : Type} [LinearOrder α] (d : Fin m → Fin n → α)
    (y_train : Fin n → ℤ) (k : ℤ) (i : Fin m) : Option ℤ :=
  if k = 1 then (np_argmin (d i)).map y_train else (rowVote (d i) y_train k).toOption

/-- The fraction of rows whose predicted label differs from the true label. -/
def mismatchFraction {m n : ℕ} {α : Type} [LinearOrder α] (d : Fin m → Fin n → α)
    (y_train : Fin n → ℤ) (y_test : Fin m → ℤ) (k : ℤ) : ℚ :=
  ((Finset.univ.filter
    (fun i : Fin m => votedLabel d y_train k i ≠ some (y_test i))).card : ℚ) / (m : ℚ)

/-! ## Helper lemmas -/

/-- The arg-min branch never returns a value when the matrix has zero rows:
either the rows are empty (arg-min of an empty sequence) or the final division
is by zero. -/
theorem knnArgminPath_zero_rows {n : ℕ} {α : Type} [LinearOrder α]
    (d : Fin 0 → Fin n → α) (y_train : Fin n → ℤ) (y_test : Fin 0 → ℤ) :
    (knnArgminPath d y_train y_test).toOption = none := by
  unfold knnArgminPath
  rcases Nat.eq_zero_or_pos n with h | h
  · rw [if_pos h]
    rfl
  · rw [if_neg (by omega), if_pos rfl]
    rfl

/-- The general branch never returns a value when the matrix has zero rows:
either the arg-partition bound check fails or the final division is by zero. -/
theorem knnGeneralPath_zero_rows {n : ℕ} {α : Type} [LinearOrder α]
    (d : Fin 0 → Fin n → α) (y_train : Fin n → ℤ) (y_test : Fin 0 → ℤ) (k : ℤ) :
    (knnGeneralPath d y_train y_test k).toOption = none := by
  unfold knnGeneralPath
  by_cases hb : -(n : ℤ) ≤ k - 1 ∧ k - 1 < (n : ℤ)
  · rw [if_pos hb, if_pos (fun i : Fin 0 => i.elim0), if_pos rfl]
    rfl
  · rw [if_neg hb]
    rfl

/-! ## Claims -/

/-- C1: for every train matrix of shape (N, D) and test matrix of shape
(M, D), `compute_distance_matrix(train, test, "squared_l2")` returns an M×N
matrix whose entry (i, j) equals the squared Euclidean distance between test
row i and train row j, computed via the norm-expansion identity. -/
theorem C1_squared_l2_distance_matrix {n m dd : ℕ}
    (x_train : Fin n → Fin dd → ℚ) (x_test : Fin m → Fin dd → ℚ) :
    compute_distance_matrix x_train x_test "squared_l2" =
      .ok (fun i j => ∑ p, (x_test i p - x_train j p) ^ 2) := by
  unfold compute_distance_matrix
  rw [if_pos rfl]
  congr 1
  funext i j
  have expand : (∑ p, (x_test i p - x_train j p) ^ 2)
      = ∑ p, (x_test i p * x_train j p * (-2) +
          (x_test i p * x_test i p + x_train j p * x_train j p)) :=
    Finset.sum_congr rfl fun p _ => by ring
  rw [expand, Finset.sum_add_distrib, Finset.sum_add_distrib, ← Finset.sum_mul]
  ring

/-- C7: `compute_distance_matrix` raises `NotImplementedError` for every
measure other than `"squared_l2"`, and `compute_distance_matrix_loo` raises
`NotImplementedError` for every measure other than `"squared_l2"` and
`"cosine"`; no partial result is produced (the error is the whole result). -/
theorem C7_unsupported_measure {n m dd nn d2 : ℕ} (measure : String)
    (x_train : Fin n → Fin dd → ℚ) (x_test : Fin m → Fin dd → ℚ)
    (x : Fin nn → Fin d2 → ℝ) (h1 : measure ≠ "squared_l2") :
    compute_distance_matrix x_train x_test measure =
        .error ("NotImplementedError: Method " ++ measure ++ " is not implemented") ∧
      (measure ≠ "cosine" →
        compute_distance_matrix_loo x measure =
          .error ("NotImplementedError: Method " ++ measure ++ " is not implemented")) := by
  constructor
  · unfold compute_distance_matrix
    rw [if_neg h1]
  · intro h2
    unfold compute_distance_matrix_loo
    rw [if_neg h1, if_neg h2]

/-- Witness for C7 at the concrete unsupported measure `"manhattan"`. -/
theorem C7_unsupported_measure_witness :
    compute_distance_matrix (fun _ _ => (0 : ℚ) : Fin 1 → Fin 1 → ℚ)
        (fun _ _ => (0 : ℚ) : Fin 1 → Fin 1 → ℚ) "manhattan" =
        .error ("NotImplementedError: Method " ++ "manhattan" ++ " is not implemented") ∧
      ("manhattan" ≠ "cosine" →
        compute_distance_matrix_loo (fun _ _ => (0 : ℝ) : Fin 1 → Fin 1 → ℝ) "manhattan" =
          .error ("NotImplementedError: Method " ++ "manhattan" ++ " is not implemented")) :=
  C7_unsupported_measure "manhattan" _ _ _ (by decide)

/-- C2 (amended): `knn_errorrate` performs no validation of `k` of its own.
For `k` greater than the number `N` of train columns the neighbor search
itself rejects the request (the arg-partition position `k - 1` is out of
bounds), surfacing as an error. -/
theorem C2_amended_k_too_large_errors {m n : ℕ} {α : Type} [LinearOrder α]
    (d : Fin m → Fin n → α) (y_train : Fin n → ℤ) (y_test : Fin m → ℤ) (k : ℤ)
    (hn : 0 < n) (hk : (n : ℤ) < k) :
    knn_errorrate d y_train y_test k = .error "ValueError: kth out of bounds" := by
  unfold knn_errorrate
  rw [if_neg (by omega : ¬ k = 1)]
  unfold knnGeneralPath
  rw [if_neg (by omega : ¬ (-(n : ℤ) ≤ k - 1 ∧ k - 1 < (n : ℤ)))]

/-- Witness for the amended C2: a 1×1 matrix with k = 2 yields the
arg-partition bound error. -/
theorem C2_amended_k_too_large_errors_witness :
    knn_errorrate (fun _ _ => (0 : ℚ) : Fin 1 → Fin 1 → ℚ) (fun _ => 0) (fun _ => 0) 2 =
      .error "ValueError: kth out of bounds" :=
  C2_amended_k_too_large_errors _ _ _ 2 (by decide) (by decide)

/-- Concrete 1×2 distance matrix used to refute C2 as stated. -/
def dKNeg : Fin 1 → Fin 2 → ℚ := ![![0, 1]]

/-- C2 (counterexample): the claim says `knn_errorrate` fails with an error
whenever k < 1; but at k = -1 (which Python slicing interprets as "all but the
last neighbor") the call returns a normal result and raises nothing. -/
theorem C2_counterexample_k_neg_one_returns :
    (knn_errorrate dKNeg ![5, 7] ![5] (-1)).toOption.isSome = true := by decide

/-- C10: when the distance matrix has zero rows, neither `knn_errorrate` nor
`knn_errorrate_loo` returns a number: every path ends in an error (for valid
arg-partition bounds, the final division by the number of rows is a division
by zero). -/
theorem C10_zero_rows_no_result {n : ℕ} {α : Type} [LinearOrder α]
    (d : Fin 0 → Fin n → α) (y_train : Fin n → ℤ) (y_test : Fin 0 → ℤ) (k : ℤ)
    (d2 : Fin 0 → Fin 0 → α) (y2 : Fin 0 → ℤ) (k2 : ℤ) :
    (knn_errorrate d y_train y_test k).toOption = none ∧
      (knn_errorrate_loo d2 y2 k2).toOption = none := by
  constructor
  · unfold knn_errorrate
    by_cases hk : k = 1
    · rw [if_pos hk]
      exact knnArgminPath_zero_rows d y_train y_test
    · rw [if_neg hk]
      exact knnGeneralPath_zero_rows d y_train y_test k
  · unfold knn_errorrate_loo
    by_cases hk : k2 = 1
    · rw [if_pos hk]
      exact knnArgminPath_zero_rows d2 y2 y2
    · rw [if_neg hk]
      exact knnGeneralPath_zero_rows d2 y2 y2 k2

/-- C3: for every input matrix and both supported measures, every diagonal
entry of the leave-one-out distance matrix is forced to +infinity. -/
theorem C3_loo_diagonal_infinity {nn dd : ℕ} (x : Fin nn → Fin dd → ℝ) (i : Fin nn) :
    (∃ D, compute_distance_matrix_loo x "squared_l2" = .ok D ∧ D i i = some ⊤) ∧
      (∃ D, compute_distance_matrix_loo x "cosine" = .ok D ∧ D i i = some ⊤) := by
  constructor
  · refine ⟨looSquaredL2 x, ?_, ?_⟩
    · unfold compute_distance_matrix_loo
      rw [if_pos rfl]
    · unfold looSquaredL2
      rw [if_pos rfl]
  · refine ⟨looCosine x, ?_, ?_⟩
    · unfold compute_distance_matrix_loo
      rw [if_neg (by decide), if_pos rfl]
    · unfold looCosine
      rw [if_pos rfl]

/-- C8: for every input matrix, the squared-L2 leave-one-out matrix is
symmetric off the diagonal and +infinity on the diagonal. -/
theorem C8_loo_squared_l2_symmetric {nn dd : ℕ} (x : Fin nn → Fin dd → ℝ) :
    ∃ D, compute_distance_matrix_loo x "squared_l2" = .ok D ∧
      (∀ i j, i ≠ j → D i j = D j i) ∧ (∀ i, D i i = some ⊤) := by
  refine ⟨looSquaredL2 x, by unfold compute_distance_matrix_loo; rw [if_pos rfl], ?_, ?_⟩
  · intro i j hij
    unfold looSquaredL2
    rw [if_neg hij, if_neg (Ne.symm hij)]
    have hdot : (∑ p, x i p * x j p) = ∑ p, x j p * x i p :=
      Finset.sum_congr rfl fun p _ => mul_comm _ _
    have hval : (∑ p, x i p * x j p) * (-2) + (∑ p, x i p * x i p) + (∑ p, x j p * x j p)
        = (∑ p, x j p * x i p) * (-2) + (∑ p, x j p * x j p) + (∑ p, x i p * x i p) := by
      rw [hdot]; ring
    rw [hval]
  · intro i
    unfold looSquaredL2
    rw [if_pos rfl]

/-- Witness for C8: the symmetry and the diagonal instantiated on a concrete
2×1 matrix. -/
theorem C8_loo_squared_l2_symmetric_witness :
    ∃ D, compute_distance_matrix_loo (fun i _ => (i : ℝ) : Fin 2 → Fin 1 → ℝ) "squared_l2" =
        .ok D ∧ D 0 1 = D 1 0 ∧ D 0 0 = some ⊤ := by
  obtain ⟨D, hD, hsym, hdiag⟩ :=
    C8_loo_squared_l2_symmetric (fun i _ => (i : ℝ) : Fin 2 → Fin 1 → ℝ)
  exact ⟨D, hD, hsym 0 1 (by decide), hdiag 0⟩

/-- Concrete 2×1 matrix whose first row has zero norm, used to refute C9 as
stated. -/
noncomputable def xZeroRow : Fin 2 → Fin 1 → ℝ := fun i _ => if i = 0 then 0 else 1

/-- C9 (counterexample): with a zero-norm row, the cosine leave-one-out matrix
contains an off-diagonal entry that is NaN (the division is 0/0), not a real
number in [0, 2]. -/
theorem C9_counterexample_zero_norm_nan :
    ∃ D, compute_distance_matrix_loo xZeroRow "cosine" = .ok D ∧ D 0 1 = none := by
  refine ⟨looCosine xZeroRow, ?_, ?_⟩
  · unfold compute_distance_matrix_loo
    rw [if_neg (by decide), if_pos rfl]
  · have h0 : (∑ p, xZeroRow 0 p * xZeroRow 0 p) = 0 := by
      simp [xZeroRow]
    have hz : Real.sqrt (∑ p, xZeroRow 0 p * xZeroRow 0 p) *
        Real.sqrt (∑ p, xZeroRow 1 p * xZeroRow 1 p) = 0 := by
      rw [h0, Real.sqrt_zero, zero_mul]
    unfold looCosine
    rw [if_neg (by decide : ¬ (0 : Fin 2) = 1), if_pos hz]

/-- C9 (amended): provided every row of x has nonzero norm, every off-diagonal
entry of the cosine leave-one-out matrix is a real number in [0, 2], and the
diagonal is +infinity.  (With a zero-norm row the affected entries are NaN, as
the counterexample shows.) -/
theorem C9_amended_cosine_range {nn dd : ℕ} (x : Fin nn → Fin dd → ℝ)
    (hx : ∀ i, ∃ p, x i p ≠ 0) :
    ∃ D, compute_distance_matrix_loo x "cosine" = .ok D ∧
      (∀ i j, i ≠ j → ∃ r : ℝ, D i j = some ((r : WithTop ℝ)) ∧ 0 ≤ r ∧ r ≤ 2) ∧
      (∀ i, D i i = some ⊤) := by
  have gram_pos : ∀ i, 0 < ∑ p, x i p * x i p := by
    intro i
    obtain ⟨p, hp⟩ := hx i
    exact Finset.sum_pos' (fun q _ => mul_self_nonneg _)
      ⟨p, Finset.mem_univ p, mul_self_pos.mpr hp⟩
  have sqrt_pos : ∀ i, 0 < Real.sqrt (∑ p, x i p * x i p) := fun i =>
    Real.sqrt_pos.mpr (gram_pos i)
  refine ⟨looCosine x, ?_, ?_, ?_⟩
  · unfold compute_distance_matrix_loo
    rw [if_neg (by decide), if_pos rfl]
  · intro i j hij
    have houter : 0 < Real.sqrt (∑ p, x i p * x i p) * Real.sqrt (∑ p, x j p * x j p) :=
      mul_pos (sqrt_pos i) (sqrt_pos j)
    refine ⟨1 - (∑ p, x i p * x j p) /
      (Real.sqrt (∑ p, x i p * x i p) * Real.sqrt (∑ p, x j p * x j p)), ?_, ?_, ?_⟩
    · unfold looCosine
      rw [if_neg hij, if_neg (ne_of_gt houter)]
    · have hcs : (∑ p, x i p * x j p) ≤
          Real.sqrt (∑ p, x i p * x i p) * Real.sqrt (∑ p, x j p * x j p) := by
        have h := Real.sum_mul_le_sqrt_mul_sqrt Finset.univ (fun p => x i p) (fun p => x j p)
        have hsq1 : (∑ p, x i p ^ 2) = ∑ p, x i p * x i p :=
          Finset.sum_congr rfl fun p _ => sq (x i p) ▸ by ring
        have hsq2 : (∑ p, x j p ^ 2) = ∑ p, x j p * x j p :=
          Finset.sum_congr rfl fun p _ => by ring
        rw [hsq1, hsq2] at h
        exact h
      have ht : (∑ p, x i p * x j p) /
          (Real.sqrt (∑ p, x i p * x i p) * Real.sqrt (∑ p, x j p * x j p)) ≤ 1 :=
        (div_le_one houter).mpr hcs
      linarith
    · have hcs2 : -(Real.sqrt (∑ p, x i p * x i p) * Real.sqrt (∑ p, x j p * x j p)) ≤
          ∑ p, x i p * x j p := by
        have h := Real.sum_mul_le_sqrt_mul_sqrt Finset.univ (fun p => x i p) (fun p => -(x j p))
        have hsq1 : (∑ p, x i p ^ 2) = ∑ p, x i p * x i p :=
          Finset.sum_congr rfl fun p _ => by ring
        have hsq2 : (∑ p, (-(x j p)) ^ 2) = ∑ p, x j p * x j p :=
          Finset.sum_congr rfl fun p _ => by ring
        have hneg : (∑ p, x i p * (-(x j p))) = -(∑ p, x i p * x j p) := by
          rw [← Finset.sum_neg_distrib]
          exact Finset.sum_congr rfl fun p _ => by ring
        rw [hsq1, hsq2, hneg] at h
        linarith
      have ht : -1 ≤ (∑ p, x i p * x j p) /
          (Real.sqrt (∑ p, x i p * x i p) * Real.sqrt (∑ p, x j p * x j p)) := by
        rw [neg_le, ← neg_div]
        exact (div_le_one houter).mpr (by linarith)
      linarith
  · intro i
    unfold looCosine
    rw [if_pos rfl]

/-- Concrete all-ones 2×1 matrix with nonzero rows, for the C9 witness. -/
noncomputable def xOnes : Fin 2 → Fin 1 → ℝ := fun _ _ => 1

/-- Witness for the amended C9 at a concrete matrix with nonzero rows. -/
theorem C9_amended_cosine_range_witness :
    ∃ D, compute_distance_matrix_loo xOnes "cosine" = .ok D ∧
      (∃ r : ℝ, D 0 1 = some ((r : WithTop ℝ)) ∧ 0 ≤ r ∧ r ≤ 2) ∧ D 0 0 = some ⊤ := by
  obtain ⟨D, hD, hrange, hdiag⟩ :=
    C9_amended_cosine_range xOnes (fun i => ⟨0, one_ne_zero⟩)
  exact ⟨D, hD, hrange 0 1 (by decide), hdiag 0⟩

/-- Inversion for the arg-min branch: a returned value is the mismatch count
for the arg-min predictions divided by the (nonzero) number of rows. -/
theorem knnArgminPath_ok {m n : ℕ} {α : Type} [LinearOrder α] {d : Fin m → Fin n → α}
    {y_train : Fin n → ℤ} {y_test : Fin m → ℤ} {r : ℚ}
    (h : knnArgminPath d y_train y_test = .ok r) :
    m ≠ 0 ∧ r = ((Finset.univ.filter
      (fun i : Fin m => (np_argmin (d i)).map y_train ≠ some (y_test i))).card : ℚ) / (m : ℚ) := by
  unfold knnArgminPath at h
  by_cases hn : n = 0
  · rw [if_pos hn] at h
    exact Except.noConfusion h
  · rw [if_neg hn] at h
    by_cases hm : m = 0
    · rw [if_pos hm] at h
      exact Except.noConfusion h
    · rw [if_neg hm] at h
      injection h with h'
      exact ⟨hm, h'.symm⟩

/-- Inversion for the general branch: a returned value is the mismatch count
for the majority votes divided by the (nonzero) number of rows. -/
theorem knnGeneralPath_ok {m n : ℕ} {α : Type} [LinearOrder α] {d : Fin m → Fin n → α}
    {y_train : Fin n → ℤ} {y_test : Fin m → ℤ} {k : ℤ} {r : ℚ}
    (h : knnGeneralPath d y_train y_test k = .ok r) :
    m ≠ 0 ∧ r = ((Finset.univ.filter
      (fun i : Fin m => (rowVote (d i) y_train k).toOption ≠ some (y_test i))).card : ℚ) /
        (m : ℚ) := by
  unfold knnGeneralPath at h
  by_cases hb : -(n : ℤ) ≤ k - 1 ∧ k - 1 < (n : ℤ)
  · rw [if_pos hb] at h
    by_cases hall : ∀ i : Fin m, (rowVote (d i) y_train k).toOption.isSome = true
    · rw [if_pos hall] at h
      by_cases hm : m = 0
      · rw [if_pos hm] at h
        exact Except.noConfusion h
      · rw [if_neg hm] at h
        injection h with h'
        exact ⟨hm, h'.symm⟩
    · rw [if_neg hall] at h
      exact Except.noConfusion h
  · rw [if_neg hb] at h
    exact Except.noConfusion h

/-- A filtered fraction of rows lies in [0, 1]. -/
theorem filter_fraction_bounds {m : ℕ} (hm : m ≠ 0) (s : Finset (Fin m)) :
    0 ≤ ((s.card : ℚ) / (m : ℚ)) ∧ ((s.card : ℚ) / (m : ℚ)) ≤ 1 := by
  have hmq : 0 < (m : ℚ) := by
    exact_mod_cast Nat.pos_of_ne_zero hm
  constructor
  · positivity
  · rw [div_le_one hmq]
    have hle : s.card ≤ m := by
      have := s.card_le_univ
      simpa [Finset.card_univ] using this
    exact_mod_cast hle

/-- Any value returned by `knn_errorrate` is the fraction of rows whose
predicted label differs from the true label, and lies in [0, 1]. -/
theorem knn_errorrate_ok_spec {m n : ℕ} {α : Type} [LinearOrder α] {d : Fin m → Fin n → α}
    {y_train : Fin n → ℤ} {y_test : Fin m → ℤ} {k : ℤ} {r : ℚ}
    (h : knn_errorrate d y_train y_test k = .ok r) :
    r = mismatchFraction d y_train y_test k ∧ 0 ≤ r ∧ r ≤ 1 := by
  unfold knn_errorrate at h
  by_cases hk : k = 1
  · subst hk
    rw [if_pos rfl] at h
    obtain ⟨hm, hr⟩ := knnArgminPath_ok h
    have hfun : ∀ i : Fin m, votedLabel d y_train 1 i = (np_argmin (d i)).map y_train := by
      intro i
      unfold votedLabel
      rw [if_pos rfl]
    have hfilter : (Finset.univ.filter
        (fun i : Fin m => votedLabel d y_train 1 i ≠ some (y_test i)))
        = (Finset.univ.filter
          (fun i : Fin m => (np_argmin (d i)).map y_train ≠ some (y_test i))) :=
      Finset.filter_congr (fun i _ => by rw [hfun i])
    have hfrac : mismatchFraction d y_train y_test 1 = r := by
      unfold mismatchFraction
      rw [hfilter, ← hr]
    refine ⟨hfrac.symm, ?_⟩
    rw [hr]
    exact filter_fraction_bounds hm _
  · rw [if_neg hk] at h
    obtain ⟨hm, hr⟩ := knnGeneralPath_ok h
    have hfun : ∀ i : Fin m, votedLabel d y_train k i = (rowVote (d i) y_train k).toOption := by
      intro i
      unfold votedLabel
      rw [if_neg hk]
    have hfilter : (Finset.univ.filter
        (fun i : Fin m => votedLabel d y_train k i ≠ some (y_test i)))
        = (Finset.univ.filter
          (fun i : Fin m => (rowVote (d i) y_train k).toOption ≠ some (y_test i))) :=
      Finset.filter_congr (fun i _ => by rw [hfun i])
    have hfrac : mismatchFraction d y_train y_test k = r := by
      unfold mismatchFraction
      rw [hfilter, ← hr]
    refine ⟨hfrac.symm, ?_⟩
    rw [hr]
    exact filter_fraction_bounds hm _

/-- `knn_errorrate_loo` is the same computation as `knn_errorrate` with the
single label vector used both as train and as test labels. -/
theorem knn_errorrate_loo_eq_knn_errorrate {nn : ℕ} {α : Type} [LinearOrder α]
    (d : Fin nn → Fin nn → α) (y : Fin nn → ℤ) (k : ℤ) :
    knn_errorrate_loo d y k = knn_errorrate d y y k := rfl

/-- C6: on a non-empty distance matrix, any error rate returned by
`knn_errorrate` or `knn_errorrate_loo` is the fraction of rows whose
majority-voted label differs from the true label, a rational in [0, 1]. -/
theorem C6_error_rate_is_fraction_in_unit_interval {m n q : ℕ} {α : Type} [LinearOrder α]
    (d : Fin m → Fin n → α) (y_train : Fin n → ℤ) (y_test : Fin m → ℤ) (k : ℤ) (r : ℚ)
    (d2 : Fin q → Fin q → α) (y2 : Fin q → ℤ) (k2 : ℤ) (r2 : ℚ)
    (hm : 0 < m) (hq : 0 < q)
    (h1 : knn_errorrate d y_train y_test k = .ok r)
    (h2 : knn_errorrate_loo d2 y2 k2 = .ok r2) :
    (r = mismatchFraction d y_train y_test k ∧ 0 ≤ r ∧ r ≤ 1) ∧
      (r2 = mismatchFraction d2 y2 y2 k2 ∧ 0 ≤ r2 ∧ r2 ≤ 1) := by
  refine ⟨knn_errorrate_ok_spec h1, ?_⟩
  rw [knn_errorrate_loo_eq_knn_errorrate] at h2
  exact knn_errorrate_ok_spec h2

/-- Concrete 2×2 distance matrix for the C6 witness (paired form). -/
def dPair : Fin 2 → Fin 2 → ℚ := ![![0, 1], ![1, 0]]

/-- Concrete 2×2 distance matrix for the C6 witness (leave-one-out form). -/
def dLooW : Fin 2 → Fin 2 → ℚ := ![![10, 1], ![1, 10]]

/-- Witness for C6 at concrete inputs: the paired call returns 1/2 and the
leave-one-out call returns 0/2, both characterized as mismatch fractions. -/
theorem C6_error_rate_witness :
    ((1 / 2 : ℚ) = mismatchFraction dPair ![3, 4] ![3, 9] 1 ∧
        0 ≤ (1 / 2 : ℚ) ∧ (1 / 2 : ℚ) ≤ 1) ∧
      ((0 / 2 : ℚ) = mismatchFraction dLooW ![0, 0] ![0, 0] 1 ∧
        0 ≤ (0 / 2 : ℚ) ∧ (0 / 2 : ℚ) ≤ 1) :=
  C6_error_rate_is_fraction_in_unit_interval dPair ![3, 4] ![3, 9] 1 (1 / 2)
    dLooW ![0, 0] 1 (0 / 2) (by decide) (by decide) rfl rfl

/-- The index of a mapped element under an injective map is the index of the
element. -/
theorem indexOf_map_of_injective {β γ : Type} [DecidableEq β] [DecidableEq γ] {g : β → γ}
    (hg : Function.Injective g) (l : List β) (a : β) :
    (l.map g).indexOf (g a) = l.indexOf a := by
  induction l with
  | nil => rfl
  | cons b t ih =>
    by_cases hba : b = a
    · subst hba
      simp [List.indexOf_cons]
    · have hgba : g b ≠ g a := fun hh => hba (hg hh)
      simp [List.indexOf_cons, hba, hgba, ih]

/-- In a list sorted ascending, an element at an earlier (or equal) position
is less than or equal to one at a later position. -/
theorem sorted_le_of_indexOf_le {l : List ℤ} (hs : l.Sorted (fun a b => a ≤ b)) {a b : ℤ}
    (ha : a ∈ l) (hb : b ∈ l) (hab : l.indexOf a ≤ l.indexOf b) : a ≤ b := by
  have hga : l.get ⟨l.indexOf a, List.indexOf_lt_length.mpr ha⟩ = a := List.indexOf_get _
  have hgb : l.get ⟨l.indexOf b, List.indexOf_lt_length.mpr hb⟩ = b := List.indexOf_get _
  rcases eq_or_lt_of_le hab with heq | hlt
  · rw [← hga, ← hgb]
    exact le_of_eq (congrArg l.get (Fin.ext heq))
  · rw [← hga, ← hgb]
    exact hs.rel_get_of_lt (by exact hlt)

/-- Membership in the sorted unique keys is membership in the label list. -/
theorem mem_npUnique {l : List ℤ} {a : ℤ} : a ∈ npUnique l ↔ a ∈ l := by
  unfold npUnique
  rw [List.mem_insertionSort, List.mem_dedup]

/-- C4: when `rowVote` (the vote step shared by `knn_errorrate` and
`knn_errorrate_loo` for k ≠ 1) selects a label, that label occurs among the
voted neighbor labels, its vote count is maximal, and among the labels tying
for the maximal count it is the smallest — i.e. the first one in the array of
unique labels sorted ascending. -/
theorem C4_tie_break_first_sorted_unique {n : ℕ} {α : Type} [LinearOrder α]
    (row : Fin n → α) (y_train : Fin n → ℤ) (k : ℤ) (key : ℤ)
    (hk : 1 < k) (hvote : rowVote row y_train k = .ok key) :
    key ∈ voteLabels row y_train k ∧
      ∀ l ∈ voteLabels row y_train k,
        (voteLabels row y_train k).count l ≤ (voteLabels row y_train k).count key ∧
          ((voteLabels row y_train k).count l = (voteLabels row y_train k).count key →
            key ≤ l) := by
  have hg : Function.Injective (fun u : ℤ => (u, (voteLabels row y_train k).count u)) := by
    intro a b hab
    exact congrArg Prod.fst hab
  unfold rowVote at hvote
  cases hmatch : (((npUnique (voteLabels row y_train k)).map
      (fun u => (u, (voteLabels row y_train k).count u))).argmax Prod.snd) with
  | none =>
    rw [hmatch] at hvote
    exact Except.noConfusion hvote
  | some kc =>
    rw [hmatch] at hvote
    injection hvote with hvote'
    obtain ⟨u, hu_mem, hu_eq⟩ := List.mem_map.mp (List.argmax_mem hmatch)
    have hukey : u = key := by
      have := congrArg Prod.fst hu_eq
      simpa [hvote'] using this
    have hkc : kc = (key, (voteLabels row y_train k).count key) := by
      rw [← hu_eq, hukey]
    have hkey_keys : key ∈ npUnique (voteLabels row y_train k) := hukey ▸ hu_mem
    have hkey_mem : key ∈ voteLabels row y_train k := mem_npUnique.mp hkey_keys
    refine ⟨hkey_mem, ?_⟩
    intro l hl
    have hl_keys : l ∈ npUnique (voteLabels row y_train k) := mem_npUnique.mpr hl
    have hl_pairs : (l, (voteLabels row y_train k).count l) ∈
        ((npUnique (voteLabels row y_train k)).map
          (fun u => (u, (voteLabels row y_train k).count u))) :=
      List.mem_map_of_mem _ hl_keys
    have hcount_le : (voteLabels row y_train k).count l ≤
        (voteLabels row y_train k).count key := by
      have := List.le_of_mem_argmax hl_pairs hmatch
      simpa [hkc] using this
    refine ⟨hcount_le, ?_⟩
    intro hcnt_eq
    have hidx := List.index_of_argmax hmatch hl_pairs (by simp [hkc, hcnt_eq])
    rw [hkc] at hidx
    have hidx_keys : (npUnique (voteLabels row y_train k)).indexOf key ≤
        (npUnique (voteLabels row y_train k)).indexOf l := by
      have h1 := indexOf_map_of_injective hg (npUnique (voteLabels row y_train k)) key
      have h2 := indexOf_map_of_injective hg (npUnique (voteLabels row y_train k)) l
      rw [← h1, ← h2]
      exact hidx
    have hsorted : (npUnique (voteLabels row y_train k)).Sorted (fun a b => a ≤ b) :=
      List.sorted_insertionSort _ _
    exact sorted_le_of_indexOf_le hsorted hkey_keys hl_keys hidx_keys

/-- Witness for C4 at a concrete tie: labels 7 and 3 each get one vote among
k = 2 neighbors, and the vote selects 3, the smaller label. -/
theorem C4_tie_break_witness :
    (3 : ℤ) ∈ voteLabels (![0, 1] : Fin 2 → ℚ) ![7, 3] 2 ∧
      ∀ l ∈ voteLabels (![0, 1] : Fin 2 → ℚ) ![7, 3] 2,
        (voteLabels (![0, 1] : Fin 2 → ℚ) ![7, 3] 2).count l ≤
            (voteLabels (![0, 1] : Fin 2 → ℚ) ![7, 3] 2).count 3 ∧
          ((voteLabels (![0, 1] : Fin 2 → ℚ) ![7, 3] 2).count l =
              (voteLabels (![0, 1] : Fin 2 → ℚ) ![7, 3] 2).count 3 →
            (3 : ℤ) ≤ l) :=
  C4_tie_break_first_sorted_unique (![0, 1] : Fin 2 → ℚ) ![7, 3] 2 3 (by decide) rfl

/-- When a row has a unique minimizer, the stable argsort puts it first. -/
theorem argsort_head_unique_min {n : ℕ} {α : Type} [LinearOrder α] (row : Fin n → α)
    {j0 : Fin n} (hmin : ∀ j', row j0 ≤ row j')
    (huniq : ∀ y, (∀ j', row y ≤ row j') → y = j0) :
    ∃ t, argsortRow row = j0 :: t := by
  cases hcons : argsortRow row with
  | nil =>
    have hlen : (argsortRow row).length = n := by
      unfold argsortRow
      rw [List.length_insertionSort, List.length_finRange]
    rw [hcons] at hlen
    have hn0 : n = 0 := by simpa using hlen.symm
    exact absurd j0.isLt (by omega)
  | cons h t =>
    refine ⟨t, ?_⟩
    have hsorted : (argsortRow row).Sorted (rankLE row) :=
      List.sorted_insertionSort (rankLE row) (List.finRange n)
    rw [hcons] at hsorted
    have hrel := List.rel_of_sorted_cons hsorted
    have hminh : ∀ b : Fin n, row h ≤ row b := by
      intro b
      have hb : b ∈ argsortRow row := by
        unfold argsortRow
        rw [List.mem_insertionSort]
        exact List.mem_finRange b
      rw [hcons] at hb
      rcases List.mem_cons.mp hb with rfl | hbt
      · exact le_refl _
      · rcases hrel b hbt with hlt | ⟨heq, _⟩
        · exact le_of_lt hlt
        · exact le_of_eq heq
    rw [huniq h hminh]

/-- When a row has a unique minimizer, `np.argmin` returns it. -/
theorem np_argmin_unique_min {n : ℕ} {α : Type} [LinearOrder α] (row : Fin n → α)
    {j0 : Fin n} (hmin : ∀ j', row j0 ≤ row j')
    (huniq : ∀ y, (∀ j', row y ≤ row j') → y = j0) :
    np_argmin row = some j0 := by
  unfold np_argmin
  cases ha : (List.finRange n).argmin row with
  | none =>
    rw [List.argmin_eq_none] at ha
    have hmem := List.mem_finRange j0
    rw [ha] at hmem
    exact absurd hmem (List.not_mem_nil _)
  | some a =>
    have hamin : ∀ b : Fin n, row a ≤ row b := fun b =>
      List.le_of_mem_argmin (List.mem_finRange b) ha
    rw [huniq a hamin]

/-- When a row has a unique minimizer, the k = 1 slice of the general path
votes exactly the label of that minimizer. -/
theorem rowVote_k1 {n : ℕ} {α : Type} [LinearOrder α] (row : Fin n → α)
    (y_train : Fin n → ℤ) {j0 : Fin n} (hmin : ∀ j', row j0 ≤ row j')
    (huniq : ∀ y, (∀ j', row y ≤ row j') → y = j0) :
    rowVote row y_train 1 = .ok (y_train j0) := by
  obtain ⟨t, ht⟩ := argsort_head_unique_min row hmin huniq
  have hlabels : voteLabels row y_train 1 = [y_train j0] := by
    unfold voteLabels sliceTake
    rw [ht]
    norm_num [List.take_succ_cons]
  unfold rowVote
  rw [hlabels]
  have hnu : npUnique [y_train j0] = [y_train j0] := by
    unfold npUnique
    rw [List.dedup_cons_of_not_mem (List.not_mem_nil _), List.dedup_nil]
    rfl
  rw [hnu]
  simp [List.argmax_singleton]

/-- For a positive number of columns and unique row minima, the general path
at k = 1 computes exactly the arg-min path, error cases included. -/
theorem general_path_k1_eq_argmin {m n : ℕ} {α : Type} [LinearOrder α]
    (d : Fin m → Fin n → α) (y_train : Fin n → ℤ) (y_test : Fin m → ℤ) (hn : 0 < n)
    (hu : ∀ i : Fin m, ∃ j : Fin n, (∀ j', d i j ≤ d i j') ∧
      ∀ y, (∀ j', d i y ≤ d i j') → y = j) :
    knnGeneralPath d y_train y_test 1 = knnArgminPath d y_train y_test := by
  choose j0 h using hu
  have hvote : ∀ i, rowVote (d i) y_train 1 = .ok (y_train (j0 i)) := fun i =>
    rowVote_k1 (d i) y_train (h i).1 (h i).2
  have hargmin : ∀ i, np_argmin (d i) = some (j0 i) := fun i =>
    np_argmin_unique_min (d i) (h i).1 (h i).2
  unfold knnGeneralPath knnArgminPath
  rw [if_pos (by omega : -(n : ℤ) ≤ 1 - 1 ∧ 1 - 1 < (n : ℤ))]
  rw [if_pos (fun i : Fin m => by
    rw [hvote i]
    rfl : ∀ i : Fin m, (rowVote (d i) y_train 1).toOption.isSome = true)]
  rw [if_neg (by omega : ¬ n = 0)]
  by_cases hm : m = 0
  · rw [if_pos hm, if_pos hm]
  · rw [if_neg hm, if_neg hm]
    have hfilter : (Finset.univ.filter
        (fun i : Fin m => (rowVote (d i) y_train 1).toOption ≠ some (y_test i)))
        = (Finset.univ.filter
          (fun i : Fin m => (np_argmin (d i)).map y_train ≠ some (y_test i))) :=
      Finset.filter_congr (fun i _ => by
        rw [hvote i, hargmin i]
        exact Iff.rfl)
    rw [hfilter]

/-- C5: the k = 1 special case of `knn_errorrate` is the arg-min path, and
when each row of d has a unique minimum the general majority-vote path run at
k = 1 returns exactly the same error rate as the arg-min path. -/
theorem C5_k1_special_case_agrees_with_general {m n : ℕ} {α : Type} [LinearOrder α]
    (d : Fin m → Fin n → α) (y_train : Fin n → ℤ) (y_test : Fin m → ℤ)
    (hu : ∀ i : Fin m, ∃ j : Fin n, (∀ j', d i j ≤ d i j') ∧
      ∀ y, (∀ j', d i y ≤ d i j') → y = j) :
    knn_errorrate d y_train y_test 1 = knnArgminPath d y_train y_test ∧
      (knnGeneralPath d y_train y_test 1).toOption =
        (knnArgminPath d y_train y_test).toOption := by
  constructor
  · unfold knn_errorrate
    rw [if_pos rfl]
  · rcases Nat.eq_zero_or_pos n with hn | hn
    · unfold knnGeneralPath knnArgminPath
      rw [if_neg (by omega : ¬ (-(n : ℤ) ≤ 1 - 1 ∧ 1 - 1 < (n : ℤ))), if_pos hn]
      rfl
    · rw [general_path_k1_eq_argmin d y_train y_test hn hu]

/-- Witness for C5 at a concrete matrix whose rows have unique minima. -/
theorem C5_k1_special_case_agrees_witness :
    knn_errorrate dPair ![3, 4] ![3, 9] 1 = knnArgminPath dPair ![3, 4] ![3, 9] ∧
      (knnGeneralPath dPair ![3, 4] ![3, 9] 1).toOption =
        (knnArgminPath dPair ![3, 4] ![3, 9]).toOption :=
  C5_k1_special_case_agrees_with_general dPair ![3, 4] ![3, 9] (by decide)
